import Mathlib

/-!
Verification of the codfish alignment-decomposition and frequency-aggregation
pipeline (src/codfreq/posnas.py and src/codfreq/sam2codfreq.py), via a shallow
embedding of the Python source into Lean.

Conventions of the embedding:
* Python ints that are always nonnegative here (positions, offsets, counts)
  become Nat; quality scores and derived means/percentages become ℚ so that
  the arithmetic identities are exact.
* Aligned pairs are values of type Option Nat × Option Nat, in the source
  order (seqpos0, refpos0) of the destructuring in posnas.py line 65.
* Bytes of the read sequence are modelled as Char (all relevant bytes are
  ASCII nucleotide letters or the gap byte).
-/

/-- Embedding of the PosNA class of src/codfreq/posnas.py (lines 16-44):
a reference position, an insertion gap offset and the nucleotide byte. -/
structure PosNA where
  pos : Nat
  bp : Nat
  na : Char
  deriving DecidableEq, Repr

/-- Embedding of the dunder eq method of PosNA (posnas.py lines 38-41):
comparison of the (pos, bp, na) triples (the isinstance guard is vacuous
for PosNA-to-PosNA comparison, the case modelled here). -/
def posnaEqPy (a b : PosNA) : Bool :=
  decide ((a.pos, a.bp, a.na) = (b.pos, b.bp, b.na))

/-- Modelled from the spec: the source defines no comparison methods on
PosNA; spec section 3 prescribes ordering by
(reference_position, insertion_offset), embedded here literally as the
lexicographic comparison of the (pos, bp) projections only. -/
def posnaLe (a b : PosNA) : Bool :=
  decide (a.pos < b.pos ∨ (a.pos = b.pos ∧ a.bp ≤ b.bp))

/-- Nucleotide selection of posnas.py lines 76-80: the gap byte for an absent
read index, otherwise the sequence byte at the read index (the out-of-range
case, an IndexError in Python, is totalized with an arbitrary default). -/
def naOf (seqchars : List Char) : Option Nat → Char
  | none => '-'
  | some i => seqchars.getD i '?'

/-- Loop state of iter_single_read_posnas (posnas.py lines 54-63):
the running insertion index, the last anchored 1-based reference position,
the trailing-insertion buffer counter, and the accumulated PosNA list. -/
structure DecompState where
  insidx : Nat
  prev_refpos : Nat
  buffer_size : Nat
  posnas : List PosNA
  deriving DecidableEq, Repr

/-- Initial loop state of iter_single_read_posnas: all counters zero, empty
accumulator. -/
def initDecompState : DecompState := ⟨0, 0, 0, []⟩

/-- Loop body of iter_single_read_posnas (posnas.py lines 65-91) for one
aligned pair. In the source the refpos-is-zero skip sits after both branch
groups; it can only fire when refpos0 is absent and prev_refpos is 0, since
an anchored pair sets refpos to refpos0 + 1 which is positive, so the two
forms agree case by case. -/
def decompStep (seqchars : List Char) (st : DecompState)
    (pair : Option Nat × Option Nat) : DecompState :=
  match pair.2 with
  | none =>
    if st.prev_refpos = 0 then
      { st with insidx := st.insidx + 1 }
    else
      { insidx := st.insidx + 1
        prev_refpos := st.prev_refpos
        buffer_size := st.buffer_size + 1
        posnas := st.posnas ++ [⟨st.prev_refpos, st.insidx + 1, naOf seqchars pair.1⟩] }
  | some r =>
      { insidx := 0
        prev_refpos := r + 1
        buffer_size := 0
        posnas := st.posnas ++ [⟨r + 1, 0, naOf seqchars pair.1⟩] }

/-- Embedding of iter_single_read_posnas (posnas.py lines 50-93): fold the
loop body over the aligned pairs, then drop buffer_size entries from the
tail (the slice posnas[:len(posnas) - buffer_size]). -/
def iter_single_read_posnas (seq : String)
    (aligned_pairs : List (Option Nat × Option Nat)) : List PosNA :=
  let st := aligned_pairs.foldl (decompStep seq.data) initDecompState
  st.posnas.take (st.posnas.length - st.buffer_size)

/-- Length of the maximal trailing run of entries with insertion offset
greater than 0, the quantity the buffer_size counter of posnas.py lines
88-91 tracks. -/
def trailingInsRun (l : List PosNA) : Nat :=
  (l.rtakeWhile fun e => decide (0 < e.bp)).length

lemma trailingInsRun_append_pos (l : List PosNA) (e : PosNA) (he : 0 < e.bp) :
    trailingInsRun (l ++ [e]) = trailingInsRun l + 1 := by
  unfold trailingInsRun
  rw [List.rtakeWhile_concat_pos _ _ e (by simp [he])]
  simp

lemma trailingInsRun_append_zero (l : List PosNA) (e : PosNA) (he : e.bp = 0) :
    trailingInsRun (l ++ [e]) = 0 := by
  unfold trailingInsRun
  rw [List.rtakeWhile_concat_neg _ _ e (by simp [he])]
  simp

/-- Invariant preserved by one loop step: the buffer counter equals the
trailing insertion run of the accumulator, and no accumulated entry has
position 0. -/
lemma decompStep_invariant (seqchars : List Char) (st : DecompState)
    (pair : Option Nat × Option Nat)
    (hbuf : st.buffer_size = trailingInsRun st.posnas)
    (hpos : ∀ e ∈ st.posnas, e.pos ≠ 0) :
    (decompStep seqchars st pair).buffer_size
        = trailingInsRun (decompStep seqchars st pair).posnas
      ∧ ∀ e ∈ (decompStep seqchars st pair).posnas, e.pos ≠ 0 := by
  rcases pair with ⟨sp, rp⟩
  cases rp with
  | none =>
    by_cases h0 : st.prev_refpos = 0
    · simpa [decompStep, h0] using ⟨hbuf, hpos⟩
    · constructor
      · show (decompStep seqchars st (sp, none)).buffer_size
            = trailingInsRun (decompStep seqchars st (sp, none)).posnas
        simp only [decompStep, if_neg h0]
        rw [trailingInsRun_append_pos st.posnas
          ⟨st.prev_refpos, st.insidx + 1, naOf seqchars sp⟩ (Nat.succ_pos st.insidx)]
        rw [hbuf]
      · intro e he
        simp only [decompStep, if_neg h0] at he
        rcases List.mem_append.1 he with h | h
        · exact hpos e h
        · rw [List.mem_singleton] at h; subst h; exact h0
  | some r =>
    constructor
    · show (decompStep seqchars st (sp, some r)).buffer_size
          = trailingInsRun (decompStep seqchars st (sp, some r)).posnas
      simp only [decompStep]
      rw [trailingInsRun_append_zero st.posnas ⟨r + 1, 0, naOf seqchars sp⟩ rfl]
    · intro e he
      simp only [decompStep] at he
      rcases List.mem_append.1 he with h | h
      · exact hpos e h
      · rw [List.mem_singleton] at h; subst h; exact Nat.succ_ne_zero r

/-- Invariant carried through the whole fold. -/
lemma foldl_decomp_invariant (seqchars : List Char)
    (pairs : List (Option Nat × Option Nat)) :
    ∀ st : DecompState,
      st.buffer_size = trailingInsRun st.posnas →
      (∀ e ∈ st.posnas, e.pos ≠ 0) →
      (pairs.foldl (decompStep seqchars) st).buffer_size
          = trailingInsRun (pairs.foldl (decompStep seqchars) st).posnas
        ∧ ∀ e ∈ (pairs.foldl (decompStep seqchars) st).posnas, e.pos ≠ 0 := by
  induction pairs with
  | nil => intro st h1 h2; exact ⟨h1, h2⟩
  | cons pair rest ih =>
    intro st h1 h2
    have step := decompStep_invariant seqchars st pair h1 h2
    simpa using ih (decompStep seqchars st pair) step.1 step.2

lemma rdropWhile_append_rtakeWhile (p : PosNA → Bool) (l : List PosNA) :
    l.rdropWhile p ++ l.rtakeWhile p = l := by
  rw [List.rdropWhile, List.rtakeWhile, ← List.reverse_append,
    List.takeWhile_append_dropWhile, List.reverse_reverse]

/-- Dropping the trailing insertion run from the tail is the same as the
rdropWhile of the positive-offset predicate. -/
lemma take_sub_trailingInsRun (l : List PosNA) :
    l.take (l.length - trailingInsRun l)
      = l.rdropWhile (fun e => decide (0 < e.bp)) := by
  have hsplit := rdropWhile_append_rtakeWhile (fun e => decide (0 < e.bp)) l
  have key : ∀ l1 l2 : List PosNA, (l1 ++ l2).take ((l1 ++ l2).length - l2.length) = l1 := by
    intro l1 l2
    rw [List.length_append, Nat.add_sub_cancel]
    exact List.take_left l1 l2
  have h2 := key (l.rdropWhile fun e => decide (0 < e.bp))
    (l.rtakeWhile fun e => decide (0 < e.bp))
  rw [hsplit] at h2
  exact h2

/-- Result shape of the decomposer: the final slice drops the trailing
buffer, which the invariant identifies with the trailing insertion run. -/
lemma iter_single_read_posnas_eq_rdropWhile (seq : String)
    (pairs : List (Option Nat × Option Nat)) :
    iter_single_read_posnas seq pairs
      = (pairs.foldl (decompStep seq.data) initDecompState).posnas.rdropWhile
          (fun e => decide (0 < e.bp)) := by
  have hinv := foldl_decomp_invariant seq.data pairs initDecompState (by
      simp [initDecompState, trailingInsRun]) (by simp [initDecompState])
  rw [iter_single_read_posnas, ← take_sub_trailingInsRun, hinv.1]

/-- C2 counterexample: on sequence "AG" and pairs
[(0,0), (1,None), (None,1)] the decomposer does NOT return the singleton
[(pos=1, off=0, A)] claimed by the spec. The third pair (None, 1) is an
anchored deletion (reference index present), so it resets the trailing
buffer and nothing is trimmed; the code returns all three entries. -/
theorem iter_single_read_posnas_c2_counterexample :
    iter_single_read_posnas "AG" [(some 0, some 0), (some 1, none), (none, some 1)]
        ≠ [⟨1, 0, 'A'⟩]
      ∧ iter_single_read_posnas "AG" [(some 0, some 0), (some 1, none), (none, some 1)]
        = [⟨1, 0, 'A'⟩, ⟨1, 1, 'G'⟩, ⟨2, 0, '-'⟩] := by
  decide

/-- C2 amended: with the stated input the decomposer returns all three
entries [(1,0,A), (1,1,G), (2,0,-)] because the final anchored deletion
pair resets the trailing-insertion buffer; for a pair list that truly ends
in the insertion, [(0,0), (1,None)], the trailing insertion is dropped and
the result is the claimed singleton [(1,0,A)]. -/
theorem iter_single_read_posnas_c2_amended :
    iter_single_read_posnas "AG" [(some 0, some 0), (some 1, none), (none, some 1)]
        = [⟨1, 0, 'A'⟩, ⟨1, 1, 'G'⟩, ⟨2, 0, '-'⟩]
      ∧ iter_single_read_posnas "AG" [(some 0, some 0), (some 1, none)]
        = [⟨1, 0, 'A'⟩] := by
  decide

/-- C3: per-pair mapping of the decomposer loop. A pair with absent
reference index appends a PosNA at position prev_refpos with offset the
incremented insertion counter (when prev_refpos is nonzero, the non-skipped
case) and leaves prev_refpos unchanged; a pair with present reference index
r appends a PosNA at position r + 1 with offset 0 and updates prev_refpos
to r + 1; the nucleotide is the gap byte for an absent read index and the
sequence character at the read index otherwise. -/
theorem decompStep_pair_spec (seqchars : List Char) (st : DecompState)
    (sp : Option Nat) (r i : Nat) :
    (decompStep seqchars st (sp, some r)
        = { insidx := 0
            prev_refpos := r + 1
            buffer_size := 0
            posnas := st.posnas ++ [⟨r + 1, 0, naOf seqchars sp⟩] })
  ∧ (st.prev_refpos ≠ 0 → decompStep seqchars st (sp, none)
        = { insidx := st.insidx + 1
            prev_refpos := st.prev_refpos
            buffer_size := st.buffer_size + 1
            posnas := st.posnas ++ [⟨st.prev_refpos, st.insidx + 1, naOf seqchars sp⟩] })
  ∧ naOf seqchars none = '-'
  ∧ ∀ h : i < seqchars.length, naOf seqchars (some i) = seqchars.get ⟨i, h⟩ := by
  refine ⟨rfl, fun h0 => ?_, rfl, fun h => ?_⟩
  · simp only [decompStep, if_neg h0]
  · show seqchars.getD i '?' = seqchars.get ⟨i, h⟩
    rw [List.getD_eq_getElem seqchars '?' h, List.get_eq_getElem]

/-- C3 witness: the insertion branch applied at a concrete state. -/
theorem decompStep_pair_spec_witness :
    decompStep ['A', 'G'] ⟨0, 3, 0, []⟩ (some 1, none)
      = { insidx := 1, prev_refpos := 3, buffer_size := 1, posnas := [⟨3, 1, 'G'⟩] } :=
  (decompStep_pair_spec ['A', 'G'] ⟨0, 3, 0, []⟩ (some 1) 0 0).2.1 (by decide)

/-- C4: the decomposer drops exactly the trailing run of entries with
positive insertion offset from the accumulated list, so the returned list
is empty or ends with an entry of offset 0. -/
theorem iter_single_read_posnas_trailing_trim (seq : String)
    (pairs : List (Option Nat × Option Nat)) :
    (iter_single_read_posnas seq pairs
        = (pairs.foldl (decompStep seq.data) initDecompState).posnas.take
            ((pairs.foldl (decompStep seq.data) initDecompState).posnas.length
              - trailingInsRun (pairs.foldl (decompStep seq.data) initDecompState).posnas))
  ∧ ∀ e : PosNA, (iter_single_read_posnas seq pairs).getLast? = some e → e.bp = 0 := by
  constructor
  · rw [iter_single_read_posnas_eq_rdropWhile, take_sub_trailingInsRun]
  · intro e he
    rw [iter_single_read_posnas_eq_rdropWhile] at he
    set full := (pairs.foldl (decompStep seq.data) initDecompState).posnas with hfull
    have hne : full.rdropWhile (fun e => decide (0 < e.bp)) ≠ [] := by
      intro hnil
      rw [hnil] at he
      exact Option.noConfusion he
    have hlast := List.rdropWhile_last_not (fun e => decide (0 < e.bp)) full hne
    rw [List.getLast?_eq_getLast _ hne] at he
    have hee := Option.some.inj he
    rw [hee] at hlast
    simp only [decide_eq_true_eq] at hlast
    omega

/-- C4 witness: a concrete read whose returned list is nonempty and whose
last entry indeed has insertion offset 0. -/
theorem iter_single_read_posnas_trailing_trim_witness :
    (iter_single_read_posnas "CT" [(some 0, some 3), (some 1, none)]).getLast?
        = some ⟨4, 0, 'C'⟩
      ∧ (⟨4, 0, 'C'⟩ : PosNA).bp = 0 :=
  ⟨by decide,
   (iter_single_read_posnas_trailing_trim "CT" [(some 0, some 3), (some 1, none)]).2
     ⟨4, 0, 'C'⟩ (by decide)⟩

/-- C5: an insertion pair arriving while prev_refpos is still 0 (before any
anchored pair) appends nothing, and no PosNA with position 0 ever appears
in the returned list. -/
theorem iter_single_read_posnas_no_pos_zero (seq : String)
    (pairs : List (Option Nat × Option Nat)) :
    (∀ (st : DecompState) (sp : Option Nat), st.prev_refpos = 0 →
        (decompStep seq.data st (sp, none)).posnas = st.posnas)
  ∧ ∀ e ∈ iter_single_read_posnas seq pairs, e.pos ≠ 0 := by
  constructor
  · intro st sp h0
    simp [decompStep, h0]
  · intro e he
    have hinv := foldl_decomp_invariant seq.data pairs initDecompState (by
        simp [initDecompState, trailingInsRun]) (by simp [initDecompState])
    rw [iter_single_read_posnas] at he
    exact hinv.2 e (List.take_subset _ _ he)

/-- C5 witness: a concrete leading insertion is skipped and the sole
returned entry has a nonzero position. -/
theorem iter_single_read_posnas_no_pos_zero_witness :
    (⟨5, 0, 'A'⟩ : PosNA) ∈ iter_single_read_posnas "AG" [(some 1, none), (some 0, some 4)]
      ∧ (⟨5, 0, 'A'⟩ : PosNA).pos ≠ 0 :=
  ⟨by decide,
   (iter_single_read_posnas_no_pos_zero "AG" [(some 1, none), (some 0, some 4)]).2
     ⟨5, 0, 'A'⟩ (by decide)⟩

/-- C9 counterexample: the by-(pos, bp) comparison of the spec's data model
is not antisymmetric, hence not a total order on PosNA values — two values
differing only in nucleotide compare below each other yet are unequal. -/
theorem posnaLe_not_antisymm :
    posnaLe ⟨1, 0, 'A'⟩ ⟨1, 0, 'C'⟩ = true
      ∧ posnaLe ⟨1, 0, 'C'⟩ ⟨1, 0, 'A'⟩ = true
      ∧ (⟨1, 0, 'A'⟩ : PosNA) ≠ ⟨1, 0, 'C'⟩ := by
  decide

/-- C9 amended: PosNA equality is value-based — the embedded dunder eq
holds exactly when the (pos, bp, na) triples coincide, with no identity
semantics — and the by-(pos, bp) comparison is a deterministic total
preorder (reflexive, transitive and total), though not antisymmetric. -/
theorem posna_value_semantics (a b c : PosNA) :
    (posnaEqPy a b = true ↔ (a.pos, a.bp, a.na) = (b.pos, b.bp, b.na))
  ∧ posnaLe a a = true
  ∧ (posnaLe a b = true → posnaLe b c = true → posnaLe a c = true)
  ∧ (posnaLe a b = true ∨ posnaLe b a = true) := by
  refine ⟨by simp [posnaEqPy], by simp [posnaLe], ?_, ?_⟩
  · intro hab hbc
    simp only [posnaLe, decide_eq_true_eq] at hab hbc ⊢
    rcases hab with h1 | ⟨h1, h1b⟩ <;> rcases hbc with h2 | ⟨h2, h2b⟩
    · exact Or.inl (h1.trans h2)
    · exact Or.inl (h2 ▸ h1)
    · exact Or.inl (h1 ▸ h2)
    · exact Or.inr ⟨h1.trans h2, h1b.trans h2b⟩
  · simp only [posnaLe, decide_eq_true_eq]
    omega

/-- C9 witness: transitivity of the comparison applied at concrete values. -/
theorem posna_value_semantics_witness :
    posnaLe ⟨1, 0, 'A'⟩ ⟨2, 0, 'G'⟩ = true :=
  (posna_value_semantics ⟨1, 0, 'A'⟩ ⟨1, 2, 'C'⟩ ⟨2, 0, 'G'⟩).2.2.1 (by decide) (by decide)

/-- Embedding of the data a scanner worker reads from one aligned read:
its query name, its query sequence and its (read index, reference index)
aligned pairs, per the pysam accessors used in posnas.py lines 120-127. -/
structure SamRead where
  query_name : String
  query_sequence : String
  aligned_pairs : List (Option Nat × Option Nat)
  deriving DecidableEq, Repr

/-- Embedding of get_posnas_between (posnas.py lines 102-129) on the reads
of one chunk. Modelled from the spec: the byte-offset seek/tell protocol of
the chunk planner (chunked_samfile of samfile_helper, not under src/) is
modelled, per spec sections 3 and 4.3, by handing the scanner the
contiguous segment of reads its chunk covers; the scanner skips reads with
empty query sequence and decomposes each remaining read. -/
def get_posnas_between (reads : List SamRead) : List (String × List PosNA) :=
  reads.filterMap fun read =>
    if read.query_sequence = "" then none
    else some (read.query_name, iter_single_read_posnas read.query_sequence read.aligned_pairs)

/-- Embedding of iter_posnas (posnas.py lines 170-226). Modelled from the
spec: chunked_samfile partitions the file into contiguous, disjoint,
jointly covering chunks (spec section 4.3), and executor.map dispatches
get_posnas_between over the chunks and yields the per-chunk result lists
in chunk order (spec sections 4.4-4.5), so the stream is their ordered
concatenation; the progress bar has no effect on the yielded values. -/
def iter_posnas (chunks : List (List SamRead)) : List (String × List PosNA) :=
  (chunks.map get_posnas_between).flatten

lemma get_posnas_between_flatten (chunks : List (List SamRead)) :
    iter_posnas chunks = get_posnas_between chunks.flatten := by
  induction chunks with
  | nil => rfl
  | cons c rest ih =>
    simp only [iter_posnas, get_posnas_between, List.map_cons, List.flatten_cons,
      List.flatten, List.filterMap_append] at ih ⊢
    rw [ih]

/-- C1: chunking invariance — for every file (list of reads) and every
partition of it into chunks, the multiset of (query_name, PosNA-list)
pairs produced by the chunked scan equals the multiset produced by
scanning the whole file as one single chunk; in fact the streams are
equal as lists. -/
theorem iter_posnas_chunking_invariance (chunks : List (List SamRead)) :
    (iter_posnas chunks : Multiset (String × List PosNA))
      = (get_posnas_between chunks.flatten : Multiset (String × List PosNA)) := by
  rw [get_posnas_between_flatten]

/-- Input tuple of the frequency aggregator (sam2codfreq.py line 15):
a reference position, a codon string and a quality score. Quality scores
are taken in ℚ so that the mean is exact. -/
abbrev CodonTuple := Nat × String × ℚ

/-- Embedding of one yielded row of sam2codfreq (sam2codfreq.py lines
31-39). -/
structure CodFreqRow where
  position : Nat
  total : Nat
  codon : String
  aa : String
  count : Nat
  percent : ℚ
  mean_quality_score : ℚ
  deriving DecidableEq, Repr

/-- Alphabet of the CODON_PATTERN regular expression of sam2codfreq.py
line 7. -/
def CODON_CHARS : List Char :=
  ['A', 'C', 'G', 'T', 'Y', 'R', 'W', 'S', 'K', 'M', 'B', 'D', 'H', 'V', 'N']

/-- Embedding of CODON_PATTERN.match: exactly three characters, all drawn
from the ambiguity-code alphabet. -/
def codonPatternMatch (codon : String) : Bool :=
  codon.length = 3 && codon.data.all fun ch => CODON_CHARS.contains ch

/-- Embedding of the classification chain of sam2codfreq.py lines 23-30,
parameterized by the external translator translate_codon (codonutils is an
external collaborator per spec section 1). -/
def classifyCodon (translate_codon : String → String) (codon : String) : String :=
  if codonPatternMatch codon then translate_codon codon
  else if codon = "" ∨ codon = "---" then "del"
  else if 3 < codon.length then "ins"
  else "X"

/-- Helper for first-occurrence deduplication: keeps each element of the
second list not already seen, in order, threading the seen accumulator.
This reproduces the key-insertion order of a Python dict or Counter. -/
def firstDedupAux {α : Type} [DecidableEq α] : List α → List α → List α
  | _, [] => []
  | seen, c :: rest =>
    if c ∈ seen then firstDedupAux seen rest
    else c :: firstDedupAux (c :: seen) rest

/-- First-occurrence deduplication of a list, the iteration order of the
keys of a Python dict filled in list order. -/
def firstDedup {α : Type} [DecidableEq α] (l : List α) : List α :=
  firstDedupAux [] l

lemma mem_firstDedupAux {α : Type} [DecidableEq α] (l : List α) :
    ∀ (seen : List α) (a : α), a ∈ firstDedupAux seen l ↔ a ∈ l ∧ a ∉ seen := by
  induction l with
  | nil => intro seen a; simp [firstDedupAux]
  | cons c rest ih =>
    intro seen a
    by_cases hc : c ∈ seen
    · rw [firstDedupAux, if_pos hc, ih]
      constructor
      · rintro ⟨h1, h2⟩; exact ⟨List.mem_cons_of_mem c h1, h2⟩
      · rintro ⟨h1, h2⟩
        rcases List.mem_cons.1 h1 with h | h
        · subst h; exact absurd hc h2
        · exact ⟨h, h2⟩
    · rw [firstDedupAux, if_neg hc]
      constructor
      · intro h
        rcases List.mem_cons.1 h with h | h
        · subst h; exact ⟨List.mem_cons_self a rest, hc⟩
        · rcases (ih (c :: seen) a).1 h with ⟨h1, h2⟩
          refine ⟨List.mem_cons_of_mem c h1, fun hs => h2 (List.mem_cons_of_mem c hs)⟩
      · rintro ⟨h1, h2⟩
        rcases List.mem_cons.1 h1 with h | h
        · subst h; exact List.mem_cons_self a _
        · by_cases hac : a = c
          · subst hac; exact List.mem_cons_self a _
          · exact List.mem_cons_of_mem c ((ih (c :: seen) a).2
              ⟨h, fun hs => (List.mem_cons.1 hs).elim hac h2⟩)

lemma mem_firstDedup {α : Type} [DecidableEq α] (l : List α) (a : α) :
    a ∈ firstDedup l ↔ a ∈ l := by
  rw [firstDedup, mem_firstDedupAux]
  simp

lemma nodup_firstDedupAux {α : Type} [DecidableEq α] (l : List α) :
    ∀ seen : List α, (firstDedupAux seen l).Nodup := by
  induction l with
  | nil => intro seen; simp [firstDedupAux]
  | cons c rest ih =>
    intro seen
    by_cases hc : c ∈ seen
    · rw [firstDedupAux, if_pos hc]; exact ih seen
    · rw [firstDedupAux, if_neg hc]
      refine List.Nodup.cons ?_ (ih (c :: seen))
      intro hmem
      exact ((mem_firstDedupAux rest (c :: seen) c).1 hmem).2 (List.mem_cons_self c seen)

lemma nodup_firstDedup {α : Type} [DecidableEq α] (l : List α) :
    (firstDedup l).Nodup :=
  nodup_firstDedupAux l []

/-- Tuples of the aggregator input stream landing at reference position p
(the codonfreqs[refpos] and qualities[refpos] bucket of sam2codfreq.py
lines 16-17). -/
def tuplesAt (l : List CodonTuple) (p : Nat) : List CodonTuple :=
  l.filter fun t => decide (t.1 = p)

/-- Count of a (position, codon) pair in the input stream: the value
codonfreqs[refpos][codon] after the accumulation loop. -/
def countOf (l : List CodonTuple) (p : Nat) (c : String) : Nat :=
  (l.filter fun t => decide (t.1 = p ∧ t.2.1 = c)).length

/-- Quality list of a (position, codon) pair, in stream order: the value
qualities[refpos][codon] after the accumulation loop. -/
def quaList (l : List CodonTuple) (p : Nat) (c : String) : List ℚ :=
  (l.filter fun t => decide (t.1 = p ∧ t.2.1 = c)).map fun t => t.2.2

/-- Codons observed at position p, in first-occurrence order: the key
iteration order of the Counter codonfreqs[refpos]. -/
def codonsAt (l : List CodonTuple) (p : Nat) : List String :=
  firstDedup ((tuplesAt l p).map fun t => t.2.1)

/-- Positions of the output, ascending: sorted(codonfreqs.items()) of
sam2codfreq.py line 18 iterates the distinct observed positions in
ascending order. -/
def positionsSorted (l : List CodonTuple) : List Nat :=
  (firstDedup (l.map fun t => t.1)).insertionSort (· ≤ ·)

/-- Embedding of total = sum(codons.values()) of sam2codfreq.py line 19. -/
def totalAt (l : List CodonTuple) (p : Nat) : Nat :=
  ((codonsAt l p).map (countOf l p)).sum

/-- One output row of the aggregator (sam2codfreq.py lines 20-39). -/
def mkRow (translate_codon : String → String) (l : List CodonTuple)
    (p : Nat) (c : String) : CodFreqRow :=
  { position := p
    total := totalAt l p
    codon := c
    aa := classifyCodon translate_codon c
    count := countOf l p c
    percent := (countOf l p c : ℚ) / (totalAt l p : ℚ)
    mean_quality_score := (quaList l p c).sum / ((quaList l p c).length : ℚ) }

/-- Embedding of sam2codfreq (sam2codfreq.py lines 10-39) downstream of the
external mate-pair/codon collaborators: from the stream of (position,
codon, quality) tuples, emit one row per observed (position, codon), the
positions ascending, the codons per position in first-occurrence order. -/
def sam2codfreq (translate_codon : String → String)
    (l : List CodonTuple) : List CodFreqRow :=
  (positionsSorted l).flatMap fun p => (codonsAt l p).map (mkRow translate_codon l p)

/-- Stand-in translator used only to instantiate witnesses; the aggregator
is verified for an arbitrary translator. -/
def exTranslate : String → String := fun _ => "K"

/-- C7: classification of emitted rows. A codon matching the 3-character
ambiguity-code pattern goes to the external translator; the empty codon
and exactly "---" get the marker del; a codon longer than 3 characters
gets the marker ins; every other codon gets the marker X. -/
theorem classifyCodon_spec (tr : String → String) (codon : String) :
    (codonPatternMatch codon = true → classifyCodon tr codon = tr codon)
  ∧ classifyCodon tr "" = "del"
  ∧ classifyCodon tr "---" = "del"
  ∧ (3 < codon.length → classifyCodon tr codon = "ins")
  ∧ (codonPatternMatch codon = false → codon ≠ "" → codon ≠ "---" →
      codon.length ≤ 3 → classifyCodon tr codon = "X") := by
  refine ⟨fun h => by simp [classifyCodon, h], rfl, rfl, fun h => ?_, ?_⟩
  · have h3 : codon.length ≠ 3 := by omega
    have hp : codonPatternMatch codon = false := by
      simp [codonPatternMatch, h3]
    have hne : codon ≠ "" := by
      intro heq; rw [heq] at h; exact absurd h (by decide)
    have hne3 : codon ≠ "---" := by
      intro heq; rw [heq] at h; exact absurd h (by decide)
    simp [classifyCodon, hp, hne, hne3, h]
  · intro hp h1 h2 h4
    simp [classifyCodon, hp, h1, h2, Nat.not_lt.2 h4]

/-- C7 witness: the four branches at concrete codons. -/
theorem classifyCodon_spec_witness :
    classifyCodon exTranslate "ATG" = exTranslate "ATG"
  ∧ classifyCodon exTranslate "ATGA" = "ins"
  ∧ classifyCodon exTranslate "AT-" = "X" :=
  ⟨(classifyCodon_spec exTranslate "ATG").1 (by decide),
   (classifyCodon_spec exTranslate "ATGA").2.2.2.1 (by decide),
   (classifyCodon_spec exTranslate "AT-").2.2.2.2 (by decide) (by decide) (by decide)
     (by decide)⟩

lemma tuplesAt_perm (l l2 : List CodonTuple) (h : List.Perm l l2) (p : Nat) :
    List.Perm (tuplesAt l p) (tuplesAt l2 p) :=
  h.filter _

lemma countOf_perm (l l2 : List CodonTuple) (h : List.Perm l l2) (p : Nat) (c : String) :
    countOf l p c = countOf l2 p c :=
  (h.filter _).length_eq

lemma quaList_perm (l l2 : List CodonTuple) (h : List.Perm l l2) (p : Nat) (c : String) :
    List.Perm (quaList l p c) (quaList l2 p c) :=
  (h.filter _).map _

lemma codonsAt_perm (l l2 : List CodonTuple) (h : List.Perm l l2) (p : Nat) :
    List.Perm (codonsAt l p) (codonsAt l2 p) := by
  refine (List.perm_ext_iff_of_nodup (nodup_firstDedup _) (nodup_firstDedup _)).2 ?_
  intro c
  rw [mem_firstDedup, mem_firstDedup]
  exact ((tuplesAt_perm l l2 h p).map _).mem_iff

lemma totalAt_perm (l l2 : List CodonTuple) (h : List.Perm l l2) (p : Nat) :
    totalAt l p = totalAt l2 p := by
  unfold totalAt
  rw [((codonsAt_perm l l2 h p).map (countOf l p)).sum_eq]
  congr 1
  exact List.map_congr_left fun c _ => countOf_perm l l2 h p c

lemma mkRow_perm (tr : String → String) (l l2 : List CodonTuple)
    (h : List.Perm l l2) (p : Nat) (c : String) :
    mkRow tr l p c = mkRow tr l2 p c := by
  unfold mkRow
  rw [countOf_perm l l2 h p c, totalAt_perm l l2 h p,
    (quaList_perm l l2 h p c).sum_eq, (quaList_perm l l2 h p c).length_eq]

lemma positionsSorted_perm_eq (l l2 : List CodonTuple) (h : List.Perm l l2) :
    positionsSorted l = positionsSorted l2 := by
  refine List.eq_of_perm_of_sorted ?_ (List.sorted_insertionSort _ _)
    (List.sorted_insertionSort _ _)
  refine ((List.perm_insertionSort _ _).trans ?_).trans
    (List.perm_insertionSort _ _).symm
  refine (List.perm_ext_iff_of_nodup (nodup_firstDedup _) (nodup_firstDedup _)).2 ?_
  intro a
  rw [mem_firstDedup, mem_firstDedup]
  exact (h.map _).mem_iff

lemma flatMap_perm_congr {α β : Type} (f g : α → List β)
    (hfg : ∀ a, List.Perm (f a) (g a)) :
    ∀ ps : List α, List.Perm (ps.flatMap f) (ps.flatMap g) := by
  intro ps
  induction ps with
  | nil => exact List.Perm.refl _
  | cons a rest ih =>
    rw [List.flatMap_cons, List.flatMap_cons]
    exact (hfg a).append ih

/-- C6 amended: permutation invariance of the aggregator up to row order —
for any two input streams that are permutations of each other, the
multisets of emitted rows coincide (counts, percents and mean qualities
exactly equal, positions and codons matched up). -/
theorem sam2codfreq_perm_invariant (tr : String → String) (l l2 : List CodonTuple)
    (h : List.Perm l l2) :
    (sam2codfreq tr l : Multiset CodFreqRow)
      = (sam2codfreq tr l2 : Multiset CodFreqRow) := by
  refine Multiset.coe_eq_coe.2 ?_
  unfold sam2codfreq
  rw [positionsSorted_perm_eq l l2 h]
  refine flatMap_perm_congr _ _ (fun p => ?_) _
  refine ((codonsAt_perm l l2 h p).map _).trans ?_
  rw [List.map_congr_left fun c _ => mkRow_perm tr l l2 h p c]

/-- Input stream used by the C6 counterexample and witness, and its swap. -/
def cexStreamA : List CodonTuple := [(1, "AAA", 30), (1, "CCC", 30)]

/-- Transposition of cexStreamA. -/
def cexStreamB : List CodonTuple := [(1, "CCC", 30), (1, "AAA", 30)]

/-- C6 counterexample: the two permuted streams produce different row
SEQUENCES — the per-position codon rows come out in first-discovery order,
so the literal output lists differ even though their multisets agree. -/
theorem sam2codfreq_not_sequence_invariant :
    List.Perm cexStreamA cexStreamB
      ∧ sam2codfreq exTranslate cexStreamA ≠ sam2codfreq exTranslate cexStreamB := by
  constructor
  · exact List.Perm.swap _ _ _
  · intro hEq
    have h2 := congrArg (List.map CodFreqRow.codon) hEq
    have hA : (sam2codfreq exTranslate cexStreamA).map CodFreqRow.codon
        = ["AAA", "CCC"] := rfl
    have hB : (sam2codfreq exTranslate cexStreamB).map CodFreqRow.codon
        = ["CCC", "AAA"] := rfl
    rw [hA, hB] at h2
    exact absurd h2 (by decide)

/-- C6 witness: the amended multiset equality applied to the two concrete
permuted streams. -/
theorem sam2codfreq_perm_invariant_witness :
    (sam2codfreq exTranslate cexStreamA : Multiset CodFreqRow)
      = (sam2codfreq exTranslate cexStreamB : Multiset CodFreqRow) :=
  sam2codfreq_perm_invariant exTranslate cexStreamA cexStreamB (List.Perm.swap _ _ _)

lemma countOf_pos_of_mem_codonsAt (l : List CodonTuple) (p : Nat) (c : String)
    (hc : c ∈ codonsAt l p) : 0 < countOf l p c := by
  rw [codonsAt, mem_firstDedup] at hc
  obtain ⟨t, ht, rfl⟩ := List.mem_map.1 hc
  rw [tuplesAt, List.mem_filter] at ht
  obtain ⟨htl, htp⟩ := ht
  have hmem : t ∈ l.filter fun t2 => decide (t2.1 = p ∧ t2.2.1 = t.2.1) := by
    rw [List.mem_filter]
    refine ⟨htl, ?_⟩
    simp only [decide_eq_true_eq] at htp ⊢
    simp [htp]
  exact List.length_pos.2 (List.ne_nil_of_mem hmem)

lemma exists_codon_of_mem_positions (l : List CodonTuple) (p : Nat)
    (hp : p ∈ positionsSorted l) : ∃ c, c ∈ codonsAt l p := by
  rw [positionsSorted] at hp
  have hp2 := (List.perm_insertionSort (· ≤ ·) _).mem_iff.1 hp
  rw [mem_firstDedup] at hp2
  obtain ⟨t, htl, htp⟩ := List.mem_map.1 hp2
  refine ⟨t.2.1, ?_⟩
  rw [codonsAt, mem_firstDedup]
  refine List.mem_map.2 ⟨t, ?_, rfl⟩
  rw [tuplesAt, List.mem_filter]
  exact ⟨htl, by simp [htp]⟩

lemma totalAt_pos (l : List CodonTuple) (p : Nat)
    (hp : p ∈ positionsSorted l) : 0 < totalAt l p := by
  obtain ⟨c, hc⟩ := exists_codon_of_mem_positions l p hp
  have h1 := countOf_pos_of_mem_codonsAt l p c hc
  have h2 : countOf l p c ∈ (codonsAt l p).map (countOf l p) :=
    List.mem_map_of_mem _ hc
  exact Nat.lt_of_lt_of_le h1
    (List.single_le_sum (fun x _ => Nat.zero_le x) _ h2)

lemma nodup_positionsSorted (l : List CodonTuple) : (positionsSorted l).Nodup :=
  (List.perm_insertionSort (· ≤ ·) _).nodup_iff.2 (nodup_firstDedup _)

lemma filter_rows_block (tr : String → String) (l : List CodonTuple) (p : Nat) :
    ∀ ps : List Nat, ps.Nodup →
      ((ps.flatMap fun q => (codonsAt l q).map (mkRow tr l q)).filter
          fun row => decide (row.position = p))
        = if p ∈ ps then (codonsAt l p).map (mkRow tr l p) else [] := by
  intro ps
  induction ps with
  | nil => intro _; simp
  | cons q rest ih =>
    intro hnodup
    rw [List.flatMap_cons, List.filter_append, ih hnodup.of_cons]
    by_cases hqp : q = p
    · subst hqp
      have hnotin : q ∉ rest := (List.nodup_cons.1 hnodup).1
      have hkeep : ((codonsAt l q).map (mkRow tr l q)).filter
          (fun row => decide (row.position = q)) = (codonsAt l q).map (mkRow tr l q) :=
        List.filter_eq_self.2 fun row hrow => by
          obtain ⟨c, _, rfl⟩ := List.mem_map.1 hrow
          simp [mkRow]
      rw [hkeep, if_neg hnotin, if_pos (List.mem_cons_self q rest), List.append_nil]
    · have hdrop : ((codonsAt l q).map (mkRow tr l q)).filter
          (fun row => decide (row.position = p)) = [] :=
        List.filter_eq_nil_iff.2 fun row hrow => by
          obtain ⟨c, _, rfl⟩ := List.mem_map.1 hrow
          simp [mkRow, hqp]
      rw [hdrop, List.nil_append]
      by_cases hpr : p ∈ rest
      · rw [if_pos hpr, if_pos (List.mem_cons_of_mem q hpr)]
      · rw [if_neg hpr, if_neg (fun hmem => by
          rcases List.mem_cons.1 hmem with hh | hh
          · exact hqp hh.symm
          · exact hpr hh)]

/-- C8: percent sums — for every position appearing in the output, the
percent fields of the rows emitted at that position sum to exactly 1 (the
count/total identity, stated in ℚ). -/
theorem sam2codfreq_percent_sum (tr : String → String) (l : List CodonTuple)
    (p : Nat) (hp : p ∈ positionsSorted l) :
    (((sam2codfreq tr l).filter fun row => decide (row.position = p)).map
        CodFreqRow.percent).sum = 1 := by
  rw [sam2codfreq, filter_rows_block tr l p _ (nodup_positionsSorted l), if_pos hp]
  rw [List.map_map]
  have hcomp : (CodFreqRow.percent ∘ mkRow tr l p)
      = fun c => (countOf l p c : ℚ) / (totalAt l p : ℚ) := rfl
  rw [hcomp]
  have hTpos := totalAt_pos l p hp
  have hT : ((totalAt l p : ℚ)) ≠ 0 := Nat.cast_ne_zero.2 (by omega)
  have hsplit : ((codonsAt l p).map fun c => (countOf l p c : ℚ) / (totalAt l p : ℚ)).sum
      = (((codonsAt l p).map fun c => (countOf l p c : ℚ)).sum) / (totalAt l p : ℚ) := by
    simp only [div_eq_mul_inv]
    rw [List.sum_map_mul_right]
  rw [hsplit]
  have hnum : ((codonsAt l p).map fun c => (countOf l p c : ℚ)).sum
      = (totalAt l p : ℚ) := by
    rw [totalAt, Nat.cast_list_sum, List.map_map]
    rfl
  rw [hnum, div_self hT]

/-- C8 witness: the percent sum at position 1 of a one-tuple stream. -/
theorem sam2codfreq_percent_sum_witness :
    1 ∈ positionsSorted [(1, "AAA", (0 : ℚ))]
      ∧ (((sam2codfreq exTranslate [(1, "AAA", (0 : ℚ))]).filter
            fun row => decide (row.position = 1)).map CodFreqRow.percent).sum = 1 :=
  ⟨by decide, sam2codfreq_percent_sum exTranslate [(1, "AAA", (0 : ℚ))] 1 (by decide)⟩

/-- C10: totality of the aggregator's divisions — every emitted row has a
positive total, a positive count, and a nonempty quality list for its
(position, codon) key, so neither the percent division nor the mean
quality division can divide by zero. -/
theorem sam2codfreq_divisors_pos (tr : String → String) (l : List CodonTuple)
    (row : CodFreqRow) (hrow : row ∈ sam2codfreq tr l) :
    0 < row.total ∧ 0 < row.count
      ∧ 0 < (quaList l row.position row.codon).length := by
  rw [sam2codfreq] at hrow
  obtain ⟨p, hp, hrow2⟩ := List.mem_flatMap.1 hrow
  obtain ⟨c, hc, rfl⟩ := List.mem_map.1 hrow2
  have hqlen : (quaList l p c).length = countOf l p c := by
    rw [quaList, List.length_map, countOf]
  refine ⟨totalAt_pos l p hp, countOf_pos_of_mem_codonsAt l p c hc, ?_⟩
  show 0 < (quaList l p c).length
  rw [hqlen]
  exact countOf_pos_of_mem_codonsAt l p c hc

/-- C10 witness: the guarantees at the single row of a one-tuple stream. -/
theorem sam2codfreq_divisors_pos_witness :
    0 < (mkRow exTranslate [(2, "TTT", (0 : ℚ))] 2 "TTT").total
      ∧ 0 < (mkRow exTranslate [(2, "TTT", (0 : ℚ))] 2 "TTT").count
      ∧ 0 < (quaList [(2, "TTT", (0 : ℚ))]
          (mkRow exTranslate [(2, "TTT", (0 : ℚ))] 2 "TTT").position
          (mkRow exTranslate [(2, "TTT", (0 : ℚ))] 2 "TTT").codon).length :=
  sam2codfreq_divisors_pos exTranslate [(2, "TTT", (0 : ℚ))]
    (mkRow exTranslate [(2, "TTT", (0 : ℚ))] 2 "TTT") (List.Mem.head _)
